import Mathlib

/-!
Verification of the bullet-time-tracking core (src/main.ts) against its
natural-language specification.

The development shallowly embeds the algorithmic core of the plugin:
  * duration arithmetic (`parseToMinutes`, `sumDurations`, `diffDuration`,
    `formatDuration`),
  * the line parser (the two regexes `timeRangeRx` used by
    `bulletNodeDuration`, and the highlight regex used inline in
    `buildDecorations`),
  * the tree builder (the parent-pointer stack in `buildDecorations`),
  * the duration aggregator (`setTasksDuration`),
  * the annotation emitter (`displayDurations` together with
    `TimeLengthWidget`).

Strings are embedded as `List Char`; document/line offsets are `Nat`.
JavaScript numbers only ever hold non-negative integers in this core
(minute counts produced by `Math.abs`, sums of such counts, and string
lengths), so they are embedded as `Nat`.
-/

namespace BulletTime

/-! ## Duration arithmetic (src/main.ts lines 58-107) -/

/-- Embeds the TypeScript interface `TimeDuration { hours; minutes }`.
Every value constructed by the program is non-negative, so the fields are
`Nat`. -/
structure TimeDuration where
  hours : Nat
  minutes : Nat
deriving Repr, DecidableEq

/-- `\d` of the regexes: an ASCII decimal digit. -/
def isDig (c : Char) : Bool :=
  '0' ≤ c && c ≤ '9'

/-- Numeric value of a digit character. -/
def digVal (c : Char) : Nat :=
  c.toNat - '0'.toNat

/-- JavaScript `Number(s)` restricted to non-empty all-digit strings, the
only inputs it receives in this program (the regex `timeRangeRx` guarantees
two-digit fields). -/
def jsNumber (s : List Char) : Nat :=
  s.foldl (fun acc c => acc * 10 + digVal c) 0

/-- JavaScript `s.split(':')`. -/
def splitOnColon (s : List Char) : List (List Char) :=
  match s with
  | [] => [[]]
  | c :: rest =>
    let tail := splitOnColon rest
    if c = ':' then
      [] :: tail
    else
      match tail with
      | [] => [[c]]
      | piece :: more => (c :: piece) :: more

/-- Embeds `parseToMinutes` (src/main.ts lines 60-63): split on `':'`,
convert the first two fields with `Number`, return `hours * 60 + minutes`.
A string without a `':'` would produce `NaN` in JavaScript; it never occurs
because callers pass regex captures of shape `HH:MM`, and the embedding
returns a junk value `0` there. -/
def parseToMinutes (s : List Char) : Nat :=
  match splitOnColon s with
  | hours :: minutes :: _ => jsNumber hours * 60 + jsNumber minutes
  | _ => 0

/-- Embeds `sumDurations` (src/main.ts lines 70-76). -/
def sumDurations (dur1 dur2 : TimeDuration) : TimeDuration :=
  let mins := (dur1.hours + dur2.hours) * 60 + dur1.minutes + dur2.minutes
  { hours := mins / 60, minutes := mins % 60 }

/-- Embeds `diffDuration` (src/main.ts lines 79-88): the absolute difference
of the two minute counts, normalized by division/remainder by 60. -/
def diffDuration (timeStr1 timeStr2 : List Char) : TimeDuration :=
  let minutes1 := parseToMinutes timeStr1
  let minutes2 := parseToMinutes timeStr2
  let difference := ((minutes2 : Int) - (minutes1 : Int)).natAbs
  { hours := difference / 60, minutes := difference % 60 }

/-- Embeds `formatDuration` (src/main.ts lines 100-107). -/
def formatDuration (duration : TimeDuration) : String :=
  let minutes := toString duration.minutes ++ " mins"
  if duration.hours > 0 then
    toString duration.hours ++ " h " ++ minutes
  else
    minutes

/-- A string of the exact shape `HH:MM`: five characters, two digits, a
colon, two digits. -/
def IsClockTime (s : List Char) : Prop :=
  ∃ h1 h2 m1 m2 : Char,
    s = [h1, h2, ':', m1, m2] ∧
    isDig h1 = true ∧ isDig h2 = true ∧ isDig m1 = true ∧ isDig m2 = true

theorem splitOnColon_clock (h1 h2 m1 m2 : Char) (hh1 : h1 ≠ ':') (hh2 : h2 ≠ ':')
    (hm1 : m1 ≠ ':') (hm2 : m2 ≠ ':') :
    splitOnColon [h1, h2, ':', m1, m2] = [[h1, h2], [m1, m2]] := by
  simp [splitOnColon, hh1, hh2, hm1, hm2]

theorem isDig_ne_colon {c : Char} (h : isDig c = true) : c ≠ ':' := by
  intro hc
  subst hc
  simp [isDig] at h

theorem parseToMinutes_clock {s : List Char} (h : IsClockTime s) :
    ∃ h1 h2 m1 m2 : Char,
      s = [h1, h2, ':', m1, m2] ∧
      parseToMinutes s = (10 * digVal h1 + digVal h2) * 60 + (10 * digVal m1 + digVal m2) := by
  obtain ⟨h1, h2, m1, m2, hs, d1, d2, d3, d4⟩ := h
  refine ⟨h1, h2, m1, m2, hs, ?_⟩
  subst hs
  rw [parseToMinutes, splitOnColon_clock h1 h2 m1 m2
    (isDig_ne_colon d1) (isDig_ne_colon d2) (isDig_ne_colon d3) (isDig_ne_colon d4)]
  simp [jsNumber]
  ring

/-! ## Line parser (src/main.ts lines 58, 90-98, 214-222)

The two regexes are embedded by hand, following JavaScript backtracking
semantics for these exact patterns.  A `\d\d:\d\d` token at position `i`
of a line is the basic building block of both. -/

/-- An `HH:MM` token (`\d\d:\d\d`) occurs at position `i` of `s`. -/
def tokenAt (s : List Char) (i : Nat) : Bool :=
  match s.drop i with
  | a :: b :: c :: d :: e :: _ =>
    isDig a && isDig b && (c == ':') && isDig d && isDig e
  | _ => false

/-- The five characters of the token at position `i` (a regex capture of
`\d\d:\d\d`). -/
def sliceToken (s : List Char) (i : Nat) : List Char :=
  (s.drop i).take 5

/-- `\s` of JavaScript regexes: the full ECMAScript WhiteSpace and
LineTerminator sets — TAB, LF, VT, FF, CR, space, NBSP, Ogham space mark
U+1680, the Zs spaces U+2000..U+200A, the line separators U+2028/U+2029,
the narrow no-break space U+202F, the medium mathematical space U+205F,
the ideographic space U+3000, and ZWNBSP U+FEFF. -/
def isSpace (c : Char) : Bool :=
  c == ' ' || c == '\t' || c == '\n' || c == '\r' ||
  c == Char.ofNat 0x0b || c == Char.ofNat 0x0c || c == Char.ofNat 0xa0 ||
  c == Char.ofNat 0x1680 ||
  (Char.ofNat 0x2000 ≤ c && c ≤ Char.ofNat 0x200a) ||
  c == Char.ofNat 0x2028 || c == Char.ofNat 0x2029 ||
  c == Char.ofNat 0x202f || c == Char.ofNat 0x205f ||
  c == Char.ofNat 0x3000 || c == Char.ofNat 0xfeff

/-- The dash alternatives `[-–—]` of the highlight regex. -/
def isDash (c : Char) : Bool :=
  c == '-' || c == '–' || c == '—'

/-- Leftmost position `≥ start` (within `fuel` candidates) satisfying `p`:
the scan a JavaScript regex engine performs to find the match position. -/
def findFirstFrom (p : Nat → Bool) : Nat → Nat → Option Nat
  | _, 0 => none
  | start, fuel + 1 => if p start then some start else findFirstFrom p (start + 1) fuel

theorem findFirstFrom_some {p : Nat → Bool} :
    ∀ {fuel start i : Nat}, findFirstFrom p start fuel = some i →
      p i = true ∧ start ≤ i ∧ i < start + fuel ∧
        ∀ k, start ≤ k → k < i → p k = false := by
  intro fuel
  induction fuel with
  | zero => intro start i h; simp [findFirstFrom] at h
  | succ n ih =>
    intro start i h
    rw [findFirstFrom] at h
    by_cases hp : p start = true
    · rw [if_pos hp] at h
      obtain rfl : start = i := by simpa using h
      exact ⟨hp, le_refl _, by omega, fun k hk1 hk2 => by omega⟩
    · rw [if_neg hp] at h
      obtain ⟨h1, h2, h3, h4⟩ := ih h
      refine ⟨h1, by omega, by omega, fun k hk1 hk2 => ?_⟩
      rcases Nat.eq_or_lt_of_le hk1 with rfl | hlt
      · exact Bool.eq_false_iff.mpr hp
      · exact h4 k hlt hk2

theorem findFirstFrom_none {p : Nat → Bool} :
    ∀ {fuel start : Nat}, findFirstFrom p start fuel = none →
      ∀ k, start ≤ k → k < start + fuel → p k = false := by
  intro fuel
  induction fuel with
  | zero => intro start _ k hk1 hk2; omega
  | succ n ih =>
    intro start h k hk1 hk2
    rw [findFirstFrom] at h
    by_cases hp : p start = true
    · rw [if_pos hp] at h; exact absurd h (by simp)
    · rw [if_neg hp] at h
      rcases Nat.eq_or_lt_of_le hk1 with rfl | hlt
      · exact Bool.eq_false_iff.mpr hp
      · exact ih h k hlt (by omega)

theorem findFirstFrom_eq_some {p : Nat → Bool} :
    ∀ {fuel start i : Nat}, p i = true → start ≤ i → i < start + fuel →
      (∀ k, start ≤ k → k < i → p k = false) →
      findFirstFrom p start fuel = some i := by
  intro fuel
  induction fuel with
  | zero => intro start i _ _ h3 _; omega
  | succ n ih =>
    intro start i h1 h2 h3 h4
    rw [findFirstFrom]
    rcases Nat.eq_or_lt_of_le h2 with rfl | hlt
    · rw [if_pos h1]
    · rw [if_neg (by simp [h4 start (le_refl _) hlt])]
      exact ih h1 hlt (by omega) (fun k hk1 hk2 => h4 k (by omega) hk2)

theorem tokenAt_le_length {s : List Char} {i : Nat} (h : tokenAt s i = true) :
    i + 5 ≤ s.length := by
  rw [tokenAt] at h
  rcases hd : s.drop i with _ | ⟨a, _ | ⟨b, _ | ⟨c, _ | ⟨d, _ | ⟨e, rest⟩⟩⟩⟩⟩ <;>
    rw [hd] at h <;> try simp at h
  have : (s.drop i).length = s.length - i := List.length_drop i s
  rw [hd] at this
  simp at this
  omega

/-- Embeds the matching of `timeRangeRx = ^.*?(\d\d:\d\d).*?(\d\d:\d\d).*`
(src/main.ts line 58).  The lazy `.*?` pieces make the engine place group 1
at the leftmost position `i` carrying an `HH:MM` token that is followed by
another token at some `j ≥ i + 5`, and group 2 at the leftmost such `j`;
if no such pair of positions exists the whole match fails. -/
def matchTimeRange (s : List Char) : Option (Nat × Nat) :=
  match findFirstFrom
      (fun i => tokenAt s i && (findFirstFrom (tokenAt s) (i + 5) s.length).isSome)
      0 s.length with
  | some i =>
    match findFirstFrom (tokenAt s) (i + 5) s.length with
    | some j => some (i, j)
    | none => none
  | none => none

/-- Embeds `bulletNodeDuration` (src/main.ts lines 90-98): match
`timeRangeRx` against the line, and on success return the difference of the
two captured times; the JavaScript `null` result becomes `none`. -/
def bulletNodeDuration (bulletValue : List Char) : Option TimeDuration :=
  match matchTimeRange bulletValue with
  | some (i, j) => some (diffDuration (sliceToken bulletValue i) (sliceToken bulletValue j))
  | none => none

/-- Embeds `MarkPos { from, to }` (src/main.ts lines 109-112). -/
structure MarkPos where
  fromPos : Nat
  toPos : Nat
deriving Repr, DecidableEq

/-- Length of the whitespace run at position `i` (greedy `\s*`). -/
def countSpaces (s : List Char) (i : Nat) : Nat :=
  ((s.drop i).takeWhile isSpace).length

/-- Matching of the optional group `(\s*[-–—]\s*\d\d:\d\d)?` of the inline
highlight regex at position `p`; `some len` is the length of the matched
group text.  The greedy `\s*` runs are deterministic here because neither
the dash alternatives nor digits are whitespace, so no backtracking into
them can succeed. -/
def dashGroupLen (s : List Char) (p : Nat) : Option Nat :=
  let w1 := countSpaces s p
  match s.drop (p + w1) with
  | c :: _ =>
    if isDash c then
      let w2 := countSpaces s (p + w1 + 1)
      if tokenAt s (p + w1 + 1 + w2) then some (w1 + 1 + w2 + 5) else none
    else none
  | [] => none

/-- Embeds the `markPos` computation of `buildDecorations` (src/main.ts
lines 214-222).  The inline regex `(\d\d:\d\d)(\s*[-–—]\s*\d\d:\d\d)?.*$`
matches at the leftmost position carrying an `HH:MM` token (the optional
second group and `.*$` never prevent a match).  On a match, `exec` returns
an array of length 3 (one entry per group, present even when group 2 is
`undefined`), so the `length == 3` test always succeeds and
`to = from + index + |group 1| + |group 2|` with `|group 2| = 0` when the
group did not participate (`match[2]?.length || 0`). -/
def markPosOf (bulletValue : List Char) (nodeFrom : Nat) : Option MarkPos :=
  match findFirstFrom (tokenAt bulletValue) 0 bulletValue.length with
  | some i =>
    some { fromPos := nodeFrom + i,
           toPos := nodeFrom + i + 5 + (dashGroupLen bulletValue (i + 5)).getD 0 }
  | none => none

/-- C4: `bulletNodeDuration` yields `none` exactly when the line does not
contain two `HH:MM` tokens (a start-time token followed by a disjoint
end-time token), and otherwise yields `diffDuration` applied to the first
two such tokens: the leftmost token of the line and the leftmost token
starting at or after its end.  The no-match outcome is an absent result
(`none`), not an error. -/
theorem bulletNodeDuration_spec (s : List Char) :
    (bulletNodeDuration s = none ↔
      ¬ ∃ i j, tokenAt s i = true ∧ tokenAt s j = true ∧ i + 5 ≤ j) ∧
    (∀ i j, tokenAt s i = true → (∀ k, k < i → tokenAt s k = false) →
      tokenAt s j = true → i + 5 ≤ j →
      (∀ k, i + 5 ≤ k → k < j → tokenAt s k = false) →
      bulletNodeDuration s = some (diffDuration (sliceToken s i) (sliceToken s j))) := by
  constructor
  · constructor
    · intro hnone
      rintro ⟨i, j, hi, hj, hij⟩
      rcases houter : findFirstFrom
          (fun i => tokenAt s i && (findFirstFrom (tokenAt s) (i + 5) s.length).isSome)
          0 s.length with _ | i0
      · have hilen := tokenAt_le_length hi
        have hjlen := tokenAt_le_length hj
        have hPfalse : (tokenAt s i &&
            (findFirstFrom (tokenAt s) (i + 5) s.length).isSome) = false :=
          findFirstFrom_none houter i (Nat.zero_le i) (by omega)
        rw [hi, Bool.true_and] at hPfalse
        rcases hin : findFirstFrom (tokenAt s) (i + 5) s.length with _ | j0
        · have := findFirstFrom_none hin j hij (by omega)
          rw [this] at hj
          exact Bool.noConfusion hj
        · rw [hin] at hPfalse
          simp at hPfalse
      · rcases hin0 : findFirstFrom (tokenAt s) (i0 + 5) s.length with _ | j0
        · have hP := (findFirstFrom_some houter).1
          rw [hin0] at hP
          simp at hP
        · simp [bulletNodeDuration, matchTimeRange, houter, hin0] at hnone
    · intro hno
      rcases houter : findFirstFrom
          (fun i => tokenAt s i && (findFirstFrom (tokenAt s) (i + 5) s.length).isSome)
          0 s.length with _ | i0
      · simp [bulletNodeDuration, matchTimeRange, houter]
      · exfalso
        have hP := (findFirstFrom_some houter).1
        simp only [Bool.and_eq_true, Option.isSome_iff_exists] at hP
        obtain ⟨hi0, j0, hin0⟩ := hP
        obtain ⟨hj0, hge, _, _⟩ := findFirstFrom_some hin0
        exact hno ⟨i0, j0, hi0, hj0, hge⟩
  · intro i j hi hileft hj hij hjleft
    have hilen := tokenAt_le_length hi
    have hjlen := tokenAt_le_length hj
    have hin : findFirstFrom (tokenAt s) (i + 5) s.length = some j :=
      findFirstFrom_eq_some hj hij (by omega) hjleft
    have houter : findFirstFrom
        (fun i => tokenAt s i && (findFirstFrom (tokenAt s) (i + 5) s.length).isSome)
        0 s.length = some i := by
      refine findFirstFrom_eq_some ?_ (Nat.zero_le i) (by omega) ?_
      · rw [hi, hin]
        rfl
      · intro k _ hk
        rw [hileft k hk]
        rfl
    simp [bulletNodeDuration, matchTimeRange, houter, hin]

/-- Witness for C4 at the line `"09:00 - 10:05"`: tokens at positions 0 and
8, producing the duration 1 h 5 mins. -/
theorem bulletNodeDuration_spec_witness :
    tokenAt ("09:00 - 10:05".data) 0 = true ∧
    tokenAt ("09:00 - 10:05".data) 8 = true ∧
    bulletNodeDuration ("09:00 - 10:05".data) =
      some (diffDuration (sliceToken ("09:00 - 10:05".data) 0)
        (sliceToken ("09:00 - 10:05".data) 8)) :=
  ⟨by decide, by decide,
    (bulletNodeDuration_spec ("09:00 - 10:05".data)).2 0 8 (by decide)
      (fun k hk => absurd hk (Nat.not_lt_zero k)) (by decide) (by omega)
      (by intro k h1 h2; interval_cases k <;> decide)⟩

/-- C2 counterexample: the line `"09:00 Meeting"` contains only one `HH:MM`
token (no dash-separated second token: `bulletNodeDuration` is `none`), yet
the highlight extraction produces the mark range covering that single
token, contradicting the claim that no highlight span is produced in this
case. -/
theorem markPosOf_single_token_counterexample :
    bulletNodeDuration ("09:00 Meeting".data) = none ∧
    markPosOf ("09:00 Meeting".data) 0 = some ⟨0, 5⟩ := by
  constructor <;> decide

/-- C2 amended: the highlight extraction produces a mark range exactly when
the line contains at least one `HH:MM` token; the range starts at the
leftmost token and covers the matched first-token text plus, when the
optional `dash + second HH:MM` group matches right after it, that group's
matched text; when the line contains only one token (the optional group
fails), the range covers exactly the first token's five characters. -/
theorem markPosOf_spec (s : List Char) (nodeFrom : Nat) :
    (markPosOf s nodeFrom = none ↔ ∀ i, tokenAt s i = false) ∧
    (∀ i, tokenAt s i = true → (∀ k, k < i → tokenAt s k = false) →
      markPosOf s nodeFrom =
        some ⟨nodeFrom + i, nodeFrom + i + 5 + (dashGroupLen s (i + 5)).getD 0⟩ ∧
      (dashGroupLen s (i + 5) = none →
        markPosOf s nodeFrom = some ⟨nodeFrom + i, nodeFrom + i + 5⟩)) := by
  constructor
  · constructor
    · intro hnone i
      rcases hfind : findFirstFrom (tokenAt s) 0 s.length with _ | i0
      · by_cases hi : tokenAt s i = true
        · have := findFirstFrom_none hfind i (Nat.zero_le i)
            (by have := tokenAt_le_length hi; omega)
          rw [this] at hi
          exact Bool.noConfusion hi
        · exact Bool.eq_false_iff.mpr hi
      · simp [markPosOf, hfind] at hnone
    · intro hall
      rcases hfind : findFirstFrom (tokenAt s) 0 s.length with _ | i0
      · simp [markPosOf, hfind]
      · have := (findFirstFrom_some hfind).1
        rw [hall i0] at this
        exact Bool.noConfusion this
  · intro i hi hileft
    have hfind : findFirstFrom (tokenAt s) 0 s.length = some i :=
      findFirstFrom_eq_some hi (Nat.zero_le i)
        (by have := tokenAt_le_length hi; omega)
        (fun k _ hk => hileft k hk)
    constructor
    · simp [markPosOf, hfind]
    · intro hdash
      simp [markPosOf, hfind, hdash]

/-- Witness for C2's amended theorem at the line `"09:00 - 10:00 Meeting"`:
the mark range covers exactly `"09:00 - 10:00"` (offsets 0 to 13). -/
theorem markPosOf_spec_witness :
    tokenAt ("09:00 - 10:00 Meeting".data) 0 = true ∧
    markPosOf ("09:00 - 10:00 Meeting".data) 0 = some ⟨0, 13⟩ := by
  refine ⟨by decide, ?_⟩
  have h := ((markPosOf_spec ("09:00 - 10:00 Meeting".data) 0).2 0 (by decide)
    (fun k hk => absurd hk (Nat.not_lt_zero k))).1
  rw [h]
  decide

/-- C7: for clock-time strings `t1`, `t2` of the form `HH:MM`,
`diffDuration t1 t2` is the absolute difference of the two minute counts
normalized into `{hours, minutes}` with `minutes in 0..59`; it is
commutative, and a range whose end numerically precedes its start yields
the wrong-direction magnitude (the plain difference `start − end`) rather
than wrapping past midnight. -/
theorem diffDuration_abs_comm (t1 t2 : List Char)
    (ht1 : IsClockTime t1) (ht2 : IsClockTime t2) :
    (diffDuration t1 t2).hours =
        ((parseToMinutes t2 : Int) - (parseToMinutes t1 : Int)).natAbs / 60 ∧
    (diffDuration t1 t2).minutes =
        ((parseToMinutes t2 : Int) - (parseToMinutes t1 : Int)).natAbs % 60 ∧
    (diffDuration t1 t2).minutes < 60 ∧
    diffDuration t1 t2 = diffDuration t2 t1 ∧
    (parseToMinutes t2 < parseToMinutes t1 →
      (diffDuration t1 t2).hours * 60 + (diffDuration t1 t2).minutes =
        parseToMinutes t1 - parseToMinutes t2) := by
  clear ht1 ht2
  refine ⟨rfl, rfl, ?_, ?_, ?_⟩
  · exact Nat.mod_lt _ (by norm_num)
  · have hsym : ((parseToMinutes t2 : Int) - (parseToMinutes t1 : Int)).natAbs
        = ((parseToMinutes t1 : Int) - (parseToMinutes t2 : Int)).natAbs := by omega
    simp only [diffDuration, hsym]
  · intro hlt
    simp only [diffDuration]
    have habs : (((parseToMinutes t2 : Int) - (parseToMinutes t1 : Int)).natAbs)
        = parseToMinutes t1 - parseToMinutes t2 := by omega
    rw [habs]
    omega

/-- Witness for C7 at `t1 = "09:00"`, `t2 = "10:15"`. -/
theorem diffDuration_abs_comm_witness :
    IsClockTime ('0' :: '9' :: ':' :: '0' :: '0' :: []) ∧
    IsClockTime ('1' :: '0' :: ':' :: '1' :: '5' :: []) ∧
    diffDuration ('0' :: '9' :: ':' :: '0' :: '0' :: [])
        ('1' :: '0' :: ':' :: '1' :: '5' :: []) =
      diffDuration ('1' :: '0' :: ':' :: '1' :: '5' :: [])
        ('0' :: '9' :: ':' :: '0' :: '0' :: []) := by
  have h1 : IsClockTime ('0' :: '9' :: ':' :: '0' :: '0' :: []) :=
    ⟨'0', '9', '0', '0', rfl, rfl, rfl, rfl, rfl⟩
  have h2 : IsClockTime ('1' :: '0' :: ':' :: '1' :: '5' :: []) :=
    ⟨'1', '0', '1', '5', rfl, rfl, rfl, rfl, rfl⟩
  exact ⟨h1, h2, (diffDuration_abs_comm _ _ h1 h2).2.2.2.1⟩

/-- C8: `formatDuration` returns `"<minutes> mins"` when `hours = 0` and
`"<hours> h <minutes> mins"` otherwise; in particular
`formatDuration {0, 5} = "5 mins"` and `formatDuration {2, 0} = "2 h 0 mins"`.
(The fields are `Nat`, so the claim's restriction to non-negative hours and
minutes is automatic.) -/
theorem formatDuration_spec :
    (∀ d : TimeDuration,
      formatDuration d =
        if d.hours = 0 then toString d.minutes ++ " mins"
        else toString d.hours ++ " h " ++ (toString d.minutes ++ " mins")) ∧
    formatDuration ⟨0, 5⟩ = "5 mins" ∧
    formatDuration ⟨2, 0⟩ = "2 h 0 mins" := by
  refine ⟨?_, rfl, rfl⟩
  intro d
  rcases Nat.eq_zero_or_pos d.hours with h | h
  · simp [formatDuration, h]
  · simp [formatDuration, h, Nat.pos_iff_ne_zero.mp h]

/-! ## Task tree (src/main.ts lines 114-121) and duration aggregator
(src/main.ts lines 123-138) -/

/-- Embeds the TypeScript interface `TimedTask` (src/main.ts lines
114-121).  The `parent` back-reference is used by the source only as the
tree builder's cursor, which the embedding of `buildDecorations` models as
an explicit stack; the tree itself owns its `children`. -/
inductive TimedTask where
  | mk (level : Nat) (position : Nat) (markPos : Option MarkPos)
      (duration : Option TimeDuration) (children : List TimedTask)
deriving Repr

def TimedTask.level : TimedTask → Nat
  | .mk l _ _ _ _ => l

def TimedTask.position : TimedTask → Nat
  | .mk _ p _ _ _ => p

def TimedTask.markPos : TimedTask → Option MarkPos
  | .mk _ _ m _ _ => m

def TimedTask.duration : TimedTask → Option TimeDuration
  | .mk _ _ _ d _ => d

def TimedTask.children : TimedTask → List TimedTask
  | .mk _ _ _ _ c => c

mutual

/-- Embeds the loop of `setTasksDuration` (src/main.ts lines 123-138):
`acc` is the local `duration` accumulator; each updated task is returned in
place of the mutation. -/
def setTasksDurationGo : TimeDuration → List TimedTask → TimeDuration × List TimedTask
  | acc, [] => (acc, [])
  | acc, t :: ts =>
    let r := setTaskDuration t
    let s := setTasksDurationGo (sumDurations acc r.1) ts
    (s.1, r.2 :: s.2)

/-- One iteration of the `setTasksDuration` loop on `currentTask`: if
`duration == null` it is assigned `setTasksDuration(children)` (recursing
into the children only in that case); the first component is the task's
duration after the conditional assignment. -/
def setTaskDuration : TimedTask → TimeDuration × TimedTask
  | .mk l p m d c =>
    match d with
    | some dur => (dur, .mk l p m (some dur) c)
    | none =>
      let r := setTasksDurationGo ⟨0, 0⟩ c
      (r.1, .mk l p m (some r.1) r.2)

end

/-- Embeds `setTasksDuration` (src/main.ts lines 123-138): returns the
summed duration of the list and the updated forest. -/
def setTasksDuration (taskList : List TimedTask) : TimeDuration × List TimedTask :=
  setTasksDurationGo ⟨0, 0⟩ taskList

mutual

/-- The value `setTasksDuration` returns for a task list, resolved without
mutation: fold `sumDurations` over each task's resolved duration. -/
def resolveGo : TimeDuration → List TimedTask → TimeDuration
  | acc, [] => acc
  | acc, t :: ts => resolveGo (sumDurations acc (resolveTask t)) ts

/-- A task's duration as the aggregator resolves it: its own duration if
defined, otherwise the resolved sum over its children (`⟨0, 0⟩` for a
childless node). -/
def resolveTask : TimedTask → TimeDuration
  | .mk _ _ _ d c =>
    match d with
    | some dur => dur
    | none => resolveGo ⟨0, 0⟩ c

end

mutual

/-- The aggregator's effect on a single task: a task with a defined
duration is left entirely untouched (its children are not visited); a task
with an undefined duration receives the resolved sum of its children, and
its children are aggregated recursively. -/
def aggTask : TimedTask → TimedTask
  | .mk l p m d c =>
    match d with
    | some dur => .mk l p m (some dur) c
    | none => .mk l p m (some (resolveGo ⟨0, 0⟩ c)) (aggList c)

/-- The aggregator's effect on a task list, task by task. -/
def aggList : List TimedTask → List TimedTask
  | [] => []
  | t :: ts => aggTask t :: aggList ts

end

mutual

theorem setTasksDurationGo_eq :
    ∀ (acc : TimeDuration) (ts : List TimedTask),
      setTasksDurationGo acc ts = (resolveGo acc ts, aggList ts)
  | _, [] => by
    rw [setTasksDurationGo, resolveGo, aggList]
  | acc, t :: ts => by
    rw [setTasksDurationGo, setTaskDuration_eq t,
      setTasksDurationGo_eq (sumDurations acc (resolveTask t)) ts,
      resolveGo, aggList]

theorem setTaskDuration_eq :
    ∀ t : TimedTask, setTaskDuration t = (resolveTask t, aggTask t)
  | .mk l p m d c => by
    cases d with
    | some dur => rw [setTaskDuration, resolveTask, aggTask]
    | none =>
      rw [setTaskDuration, resolveTask, aggTask,
        setTasksDurationGo_eq ⟨0, 0⟩ c]

end

/-- C1 counterexample: in the forest with a single root task that carries a
parsed duration `{1, 0}` and has one child without any duration, the
aggregation leaves the forest completely unchanged — in particular, the
child's `duration` is still `none` afterwards, so not every node of the
aggregated forest has a defined duration. -/
theorem setTasksDuration_counterexample :
    (setTasksDuration
        [.mk 1 10 none (some ⟨1, 0⟩) [.mk 2 20 none none []]]).2 =
      [.mk 1 10 none (some ⟨1, 0⟩) [.mk 2 20 none none []]] ∧
    (TimedTask.mk 2 20 none none []).duration = none := by
  constructor
  · rw [setTasksDuration, setTasksDurationGo, setTaskDuration, setTasksDurationGo]
  · rfl

/-- C1 amended: aggregation fills in durations only along chains of nodes
whose own duration is undefined.  A node with a parsed (defined) duration
keeps it unchanged and its subtree is not visited at all — children below
it keep their undefined durations; a node with an undefined duration
receives the normalized minute-sum of its children's durations resolved
recursively (`resolveTask`: a child's own duration when defined, otherwise
the sum over its children, `{hours := 0, minutes := 0}` for a childless
node), and its children are aggregated the same way.  The returned value is
the resolved sum of the forest. -/
theorem setTasksDuration_agg (ts : List TimedTask) :
    setTasksDuration ts = (resolveGo ⟨0, 0⟩ ts, aggList ts) :=
  setTasksDurationGo_eq ⟨0, 0⟩ ts

mutual

/-- Node-wise frame condition: `level`, `position`, `markPos` and the
children skeleton are identical, and a defined duration is preserved. -/
def PreservesNode : TimedTask → TimedTask → Prop
  | .mk l p m d c, .mk l2 p2 m2 d2 c2 =>
    l2 = l ∧ p2 = p ∧ m2 = m ∧ (∀ x, d = some x → d2 = some x) ∧
      PreservesList c c2

/-- List-wise frame condition, pairing the forests element by element. -/
def PreservesList : List TimedTask → List TimedTask → Prop
  | [], us => us = []
  | _ :: _, [] => False
  | t :: ts, u :: us => PreservesNode t u ∧ PreservesList ts us

end

mutual

theorem preservesNode_refl : ∀ t : TimedTask, PreservesNode t t
  | .mk l p m d c => by
    rw [PreservesNode]
    exact ⟨rfl, rfl, rfl, fun x hx => hx, preservesList_refl c⟩

theorem preservesList_refl : ∀ ts : List TimedTask, PreservesList ts ts
  | [] => by rw [PreservesList]
  | t :: ts => by
    rw [PreservesList]
    exact ⟨preservesNode_refl t, preservesList_refl ts⟩

end

mutual

theorem preservesNode_aggTask : ∀ t : TimedTask, PreservesNode t (aggTask t)
  | .mk l p m d c => by
    cases d with
    | some dur =>
      rw [aggTask, PreservesNode]
      exact ⟨rfl, rfl, rfl, fun x hx => hx, preservesList_refl c⟩
    | none =>
      rw [aggTask, PreservesNode]
      exact ⟨rfl, rfl, rfl, fun x hx => Option.noConfusion hx,
        preservesList_aggList c⟩

theorem preservesList_aggList : ∀ ts : List TimedTask, PreservesList ts (aggList ts)
  | [] => by rw [aggList, PreservesList]
  | t :: ts => by
    rw [aggList, PreservesList]
    exact ⟨preservesNode_aggTask t, preservesList_aggList ts⟩

end

/-- C9: the aggregator modifies only `duration` fields, and only of nodes
whose duration was undefined: for every node of the forest, `level`,
`position`, `markPos` and the children structure are unchanged, and a
duration that was already defined is kept with the same value. -/
theorem setTasksDuration_frame (ts : List TimedTask) :
    PreservesList ts ((setTasksDuration ts).2) := by
  rw [setTasksDuration, setTasksDurationGo_eq]
  exact preservesList_aggList ts

/-! ## Annotation emitter (src/main.ts lines 38-56 and 140-172) -/

/-- Embeds the class `TimeLengthWidget` (src/main.ts lines 38-56): a widget
holding the formatted duration text. -/
structure TimeLengthWidget where
  timeText : String
deriving Repr, DecidableEq

/-- Embeds `TimeLengthWidget.toDOM` (src/main.ts lines 46-55): the text the
rendered span carries. -/
def TimeLengthWidget.toDOMText (w : TimeLengthWidget) : String :=
  " — ⏱️ " ++ w.timeText

/-- The fixed style payload of highlight decorations (src/main.ts line
151). -/
def markStyle : String :=
  "color:#44dddd;font-family:Courier;font-size:11pt;font-weight:600;letter-spacing:-1px;"

/-- The payload of one decoration: `Decoration.mark` with its style, or
`Decoration.widget` with its widget and side. -/
inductive DecorationSpec where
  | mark (style : String)
  | widget (w : TimeLengthWidget) (side : Int)
deriving Repr, DecidableEq

/-- One `builder.add(from, to, deco)` call recorded by the
`RangeSetBuilder`. -/
structure BuilderEntry where
  fromPos : Nat
  toPos : Nat
  deco : DecorationSpec
deriving Repr, DecidableEq

/-- The `add` calls `displayDurations` issues for one task before recursing
into its children (src/main.ts lines 142-168): a mark over `markPos` when
present, then — when `duration` is present and non-zero — a widget at
`position` with `side = 1` carrying `formatDuration dur`. -/
def nodeInstrs (t : TimedTask) : List BuilderEntry :=
  (match t.markPos with
   | some mp => [⟨mp.fromPos, mp.toPos, .mark markStyle⟩]
   | none => []) ++
  (match t.duration with
   | some dur =>
     if dur.hours ≠ 0 ∨ dur.minutes ≠ 0 then
       [⟨t.position, t.position, .widget ⟨formatDuration dur⟩ 1⟩]
     else []
   | none => [])

/-- Embeds `displayDurations` (src/main.ts lines 140-172).  The
`RangeSetBuilder` argument is embedded as the list of `add` calls issued so
far (its two conditional `add`s for the current task are `nodeInstrs`); the
function returns the builder's final contents. -/
def displayDurations : List BuilderEntry → List TimedTask → List BuilderEntry
  | builder, [] => builder
  | builder, .mk l p m d c :: ts =>
    displayDurations
      (displayDurations (builder ++ nodeInstrs (.mk l p m d c)) c) ts

mutual

/-- Pre-order emission of one task's subtree. -/
def emitTree : TimedTask → List BuilderEntry
  | .mk l p m d c => nodeInstrs (.mk l p m d c) ++ emitForest c

/-- Pre-order emission of a forest. -/
def emitForest : List TimedTask → List BuilderEntry
  | [] => []
  | t :: ts => emitTree t ++ emitForest ts

end

theorem displayDurations_eq :
    ∀ (builder : List BuilderEntry) (ts : List TimedTask),
      displayDurations builder ts = builder ++ emitForest ts
  | _, [] => by
    rw [displayDurations, emitForest, List.append_nil]
  | builder, (.mk l p m d c) :: ts => by
    rw [displayDurations, emitForest, emitTree,
      displayDurations_eq _ c, displayDurations_eq _ ts]
    simp [List.append_assoc]

mutual

/-- Pre-order list of the nodes of one subtree. -/
def preTree : TimedTask → List TimedTask
  | .mk l p m d c => .mk l p m d c :: preForest c

/-- Pre-order list of the nodes of a forest. -/
def preForest : List TimedTask → List TimedTask
  | [] => []
  | t :: ts => preTree t ++ preForest ts

end

/-- The anchor and rendered label text of a widget (inline label) entry;
`none` for mark entries. -/
def widgetInfo : BuilderEntry → Option (Nat × Nat × String)
  | ⟨f, t, .widget w _⟩ => some (f, t, w.toDOMText)
  | _ => none

/-- The inline label C5 predicts for a node: present exactly when the
duration is present and non-zero, anchored at the node's `position` as a
zero-width insertion, with text `" — ⏱️ " ++ formatDuration dur`. -/
def predictedLabel (t : TimedTask) : Option (Nat × Nat × String) :=
  match t.duration with
  | some dur =>
    if dur.hours ≠ 0 ∨ dur.minutes ≠ 0 then
      some (t.position, t.position, " — ⏱️ " ++ formatDuration dur)
    else none
  | none => none

theorem filterMap_widgetInfo_nodeInstrs (t : TimedTask) :
    (nodeInstrs t).filterMap widgetInfo = (predictedLabel t).toList := by
  cases t with
  | mk l p m d c =>
    cases m with
    | none =>
      cases d with
      | none =>
        simp [nodeInstrs, predictedLabel, TimedTask.markPos, TimedTask.duration]
      | some dur =>
        by_cases h : dur.hours ≠ 0 ∨ dur.minutes ≠ 0 <;>
          simp [nodeInstrs, predictedLabel, TimedTask.markPos, TimedTask.duration,
            TimedTask.position, h, widgetInfo, TimeLengthWidget.toDOMText]
    | some mp =>
      cases d with
      | none =>
        simp [nodeInstrs, predictedLabel, TimedTask.markPos, TimedTask.duration,
          widgetInfo]
      | some dur =>
        by_cases h : dur.hours ≠ 0 ∨ dur.minutes ≠ 0 <;>
          simp [nodeInstrs, predictedLabel, TimedTask.markPos, TimedTask.duration,
            TimedTask.position, h, widgetInfo, TimeLengthWidget.toDOMText]

mutual

theorem filterMap_widgetInfo_emitTree :
    ∀ t : TimedTask, (emitTree t).filterMap widgetInfo =
      (preTree t).filterMap predictedLabel
  | .mk l p m d c => by
    rw [emitTree, preTree, List.filterMap_append, List.filterMap_cons,
      filterMap_widgetInfo_nodeInstrs, filterMap_widgetInfo_emitForest c]
    cases hp : predictedLabel (.mk l p m d c) <;> simp [hp]

theorem filterMap_widgetInfo_emitForest :
    ∀ ts : List TimedTask, (emitForest ts).filterMap widgetInfo =
      (preForest ts).filterMap predictedLabel
  | [] => by simp [emitForest, preForest]
  | t :: ts => by
    rw [emitForest, preForest, List.filterMap_append, List.filterMap_append,
      filterMap_widgetInfo_emitTree t, filterMap_widgetInfo_emitForest ts]

end

/-- C5: along the pre-order traversal, the emitter adds an inline-label
(widget) instruction for a node if and only if the node's duration is
present and non-zero (`hours ≠ 0 ∨ minutes ≠ 0`); the instruction is a
zero-width insertion anchored at the node's `position`, and its rendered
text (`TimeLengthWidget.toDOM`) is exactly `" — ⏱️ " ++ formatDuration d`.
Nodes with an absent or `{0, 0}` duration contribute no label. -/
theorem displayDurations_labels (ts : List TimedTask) :
    (displayDurations [] ts).filterMap widgetInfo =
      (preForest ts).filterMap predictedLabel := by
  rw [displayDurations_eq, List.nil_append]
  exact filterMap_widgetInfo_emitForest ts

mutual

/-- The potential instruction anchors of one subtree, in emission order:
the start of the node's mark range (when present), its line-end `position`,
then the anchors of its children. -/
def anchorsTree : TimedTask → List Nat
  | .mk l p m d c =>
    (match m with | some mp => [mp.fromPos] | none => []) ++ p :: anchorsForest c

/-- The potential instruction anchors of a forest, in emission order. -/
def anchorsForest : List TimedTask → List Nat
  | [] => []
  | t :: ts => anchorsTree t ++ anchorsForest ts

end

/-- C6's hypothesis, "the forest's nodes are in document order": each
node's mark range starts within its own line at or before the line-end
`position`, and every descendant's and later node's offsets are at or after
it — i.e. the potential anchors in pre-order form a non-decreasing
sequence. -/
def InDocumentOrder (ts : List TimedTask) : Prop :=
  List.Chain' (· ≤ ·) (anchorsForest ts)

theorem nodeInstrs_anchors_sublist (t : TimedTask) :
    ((nodeInstrs t).map BuilderEntry.fromPos).Sublist
      ((match t.markPos with | some mp => [mp.fromPos] | none => []) ++ [t.position]) := by
  cases t with
  | mk l p m d c =>
    cases m with
    | none =>
      cases d with
      | none => simp [nodeInstrs, TimedTask.markPos, TimedTask.duration]
      | some dur =>
        by_cases h : dur.hours ≠ 0 ∨ dur.minutes ≠ 0 <;>
          simp [nodeInstrs, TimedTask.markPos, TimedTask.duration,
            TimedTask.position, h]
    | some mp =>
      cases d with
      | none =>
        simp [nodeInstrs, TimedTask.markPos, TimedTask.duration, TimedTask.position]
      | some dur =>
        by_cases h : dur.hours ≠ 0 ∨ dur.minutes ≠ 0 <;>
          simp [nodeInstrs, TimedTask.markPos, TimedTask.duration,
            TimedTask.position, h]

mutual

theorem emitTree_anchors_sublist :
    ∀ t : TimedTask, ((emitTree t).map BuilderEntry.fromPos).Sublist (anchorsTree t)
  | .mk l p m d c => by
    have h2 := emitForest_anchors_sublist c
    rw [emitTree, List.map_append]
    cases m with
    | none =>
      have h1 := nodeInstrs_anchors_sublist (.mk l p none d c)
      simp only [TimedTask.markPos, TimedTask.position, List.nil_append] at h1
      have h3 := List.Sublist.append h1 h2
      simpa [anchorsTree] using h3
    | some mp =>
      have h1 := nodeInstrs_anchors_sublist (.mk l p (some mp) d c)
      simp only [TimedTask.markPos, TimedTask.position] at h1
      have h3 := List.Sublist.append h1 h2
      simpa [anchorsTree] using h3

theorem emitForest_anchors_sublist :
    ∀ ts : List TimedTask,
      ((emitForest ts).map BuilderEntry.fromPos).Sublist (anchorsForest ts)
  | [] => by simp [emitForest, anchorsForest]
  | t :: ts => by
    rw [emitForest, anchorsForest, List.map_append]
    exact List.Sublist.append (emitTree_anchors_sublist t)
      (emitForest_anchors_sublist ts)

end

/-- C6: for a forest in document order, the start positions of the
instruction sequence the emitter produces are non-decreasing. -/
theorem displayDurations_monotone (ts : List TimedTask)
    (h : InDocumentOrder ts) :
    List.Chain' (· ≤ ·) ((displayDurations [] ts).map BuilderEntry.fromPos) := by
  rw [displayDurations_eq, List.nil_append]
  rw [InDocumentOrder, List.chain'_iff_pairwise] at h
  rw [List.chain'_iff_pairwise]
  exact h.sublist (emitForest_anchors_sublist ts)

/-- Witness for C6 at a two-node document-ordered forest: a level-1 task on
line offsets 0-13 with a level-2 child on offsets 16-30. -/
theorem displayDurations_monotone_witness :
    InDocumentOrder
      [.mk 1 13 (some ⟨0, 13⟩) (some ⟨1, 0⟩)
        [.mk 2 30 (some ⟨16, 29⟩) (some ⟨0, 30⟩) []]] ∧
    List.Chain' (· ≤ ·)
      ((displayDurations []
        [.mk 1 13 (some ⟨0, 13⟩) (some ⟨1, 0⟩)
          [.mk 2 30 (some ⟨16, 29⟩) (some ⟨0, 30⟩) []]]).map
        BuilderEntry.fromPos) := by
  have h : InDocumentOrder
      [.mk 1 13 (some ⟨0, 13⟩) (some ⟨1, 0⟩)
        [.mk 2 30 (some ⟨16, 29⟩) (some ⟨0, 30⟩) []]] := by
    rw [InDocumentOrder]
    simp [anchorsForest, anchorsTree, List.chain'_cons]
  exact ⟨h, displayDurations_monotone _ h⟩

/-! ## List-node recognition (src/main.ts lines 174, 205-222) -/

/-- A syntax node as the tree builder sees it: its type name and its byte
range in the document. -/
structure SyntaxNodeRef where
  name : List Char
  nodeFrom : Nat
  nodeTo : Nat
deriving Repr, DecidableEq

/-- Embeds the matching of `listNodeNameRx = ^list-(\d)` followed by
`parseInt` of the captured digit (src/main.ts lines 174 and 206-208): the
name's first five characters must be `list-` and the sixth a digit; that
single digit is the captured group, so `parseInt` returns its value. -/
def listNodeLevel (name : List Char) : Option Nat :=
  if name.take 5 = ('l' :: 'i' :: 's' :: 't' :: '-' :: []) then
    match name.drop 5 with
    | c :: _ => if isDig c then some (digVal c) else none
    | [] => none
  else none

/-- The line descriptor the `enter` callback computes for a recognized list
node (src/main.ts lines 208-222): captured level, end-of-line position,
absolute mark range and parsed duration. -/
structure Desc where
  level : Nat
  position : Nat
  markPos : Option MarkPos
  duration : Option TimeDuration
deriving Repr, DecidableEq

/-- Embeds the filtering part of the `enter` callback (src/main.ts lines
205-222): a syntax node yields a task descriptor iff its name matches
`^list-(\d)`; `bulletValue` is `sliceDoc(node.from, node.to)`. -/
def nodeDesc (doc : List Char) (n : SyntaxNodeRef) : Option Desc :=
  match listNodeLevel n.name with
  | some lvl =>
    let bulletValue := (doc.drop n.nodeFrom).take (n.nodeTo - n.nodeFrom)
    some ⟨lvl, n.nodeTo, markPosOf bulletValue n.nodeFrom,
      bulletNodeDuration bulletValue⟩
  | none => none

/-- C10: a node name yields a nesting level exactly when it starts with
`list-` followed by a digit; the level is the value of that single first
digit regardless of what follows (so `"list-12"` gives level 1, not 12);
and a syntax node creates a task descriptor exactly when its name matches,
with that level. -/
theorem listNodeLevel_spec :
    (∀ name : List Char, (listNodeLevel name).isSome = true ↔
      ∃ c rest, name = 'l' :: 'i' :: 's' :: 't' :: '-' :: c :: rest ∧
        isDig c = true) ∧
    (∀ c rest, isDig c = true →
      listNodeLevel ('l' :: 'i' :: 's' :: 't' :: '-' :: c :: rest) =
        some (digVal c)) ∧
    listNodeLevel ("list-12".data) = some 1 ∧
    (∀ doc n, (nodeDesc doc n).isSome = (listNodeLevel n.name).isSome) ∧
    (∀ doc n d, nodeDesc doc n = some d → listNodeLevel n.name = some d.level) := by
  have hval : ∀ c rest, isDig c = true →
      listNodeLevel ('l' :: 'i' :: 's' :: 't' :: '-' :: c :: rest) =
        some (digVal c) := by
    intro c rest hc
    simp [listNodeLevel, hc]
  refine ⟨?_, hval, by decide, ?_, ?_⟩
  · intro name
    constructor
    · intro h
      rw [listNodeLevel] at h
      by_cases h5 : name.take 5 = ('l' :: 'i' :: 's' :: 't' :: '-' :: [])
      · rw [if_pos h5] at h
        rcases hd : name.drop 5 with _ | ⟨c, rest⟩
        · rw [hd] at h
          simp at h
        · rw [hd] at h
          by_cases hc : isDig c = true
          · refine ⟨c, rest, ?_, hc⟩
            have := List.take_append_drop 5 name
            rw [h5, hd] at this
            exact this.symm
          · simp [hc] at h
      · rw [if_neg h5] at h
        simp at h
    · rintro ⟨c, rest, rfl, hc⟩
      rw [hval c rest hc]
      rfl
  · intro doc n
    rw [nodeDesc]
    cases h : listNodeLevel n.name <;> simp [h]
  · intro doc n d h
    rw [nodeDesc] at h
    cases hl : listNodeLevel n.name with
    | none => rw [hl] at h; exact Option.noConfusion h
    | some lvl =>
      rw [hl] at h
      simp at h
      cases h
      rfl

/-- Witness for C10: the name `"list-12"` begins with a digit after
`list-`, creates a task, and its level is the first digit 1 (not 12). -/
theorem listNodeLevel_spec_witness :
    isDig '1' = true ∧
    listNodeLevel ("list-12".data) = some (digVal '1') ∧
    nodeDesc [] ⟨"list-12".data, 0, 0⟩ =
      some ⟨1, 0, markPosOf [] 0, bulletNodeDuration []⟩ := by
  refine ⟨by decide, listNodeLevel_spec.2.1 '1' ('2' :: []) (by decide), ?_⟩
  have h := listNodeLevel_spec.2.1 '1' ('2' :: []) (by decide)
  rw [nodeDesc]
  have hn : ("list-12".data) = 'l' :: 'i' :: 's' :: 't' :: '-' :: '1' :: '2' :: [] := by
    decide
  simp only [hn] at h ⊢
  rw [h]
  rfl

/-! ## Tree builder (src/main.ts lines 191-245)

The source maintains a `currentParent` cursor with `parent`
back-references; the chain from the cursor up to the synthetic root is
exactly a stack of open tasks.  The embedding makes that stack explicit: a
`Frame` is an open task (its descriptor fields plus the children collected
so far, most recent first); popping the cursor closes the top frame into
the frame below it.  A child is attached to its parent when the child's
frame is closed, which yields the same trees as the source's push-at-
creation followed by in-place mutation. -/

/-- An open task on the parent-cursor stack: the task's fields and the
children attached so far, most recent first. -/
structure Frame where
  level : Nat
  position : Nat
  markPos : Option MarkPos
  duration : Option TimeDuration
  childrenRev : List TimedTask
deriving Repr

/-- The descriptor fields of a frame. -/
def frameDesc (f : Frame) : Desc :=
  ⟨f.level, f.position, f.markPos, f.duration⟩

/-- Closing a frame yields the finished task. -/
def closeFrame (f : Frame) : TimedTask :=
  .mk f.level f.position f.markPos f.duration f.childrenRev.reverse

/-- Attaching a finished child to a frame (`currentParent.children.push`,
seen at closing time). -/
def pushChild (t : TimedTask) (g : Frame) : Frame :=
  { g with childrenRev := t :: g.childrenRev }

/-- Embeds the pop loop (src/main.ts lines 225-227):
`while (currentParent != null && currentParent.level >= currentTaskLevel)
currentParent = currentParent.parent`.  Walking past the root (possible in
JavaScript only for a level-0 descriptor, where the subsequent `push` would
throw) is modeled by the empty stack. -/
def popTo (lvl : Nat) : List Frame → List Frame
  | [] => []
  | f :: rest =>
    if lvl ≤ f.level then
      match rest with
      | [] => []
      | g :: gs => popTo lvl (pushChild (closeFrame f) g :: gs)
    else f :: rest
termination_by st => st.length
decreasing_by simp [List.length_cons]

/-- The frame opened for a new descriptor (src/main.ts lines 229-236):
level, end-of-line position, mark range and parsed duration, no children
yet. -/
def newFrame (d : Desc) : Frame :=
  ⟨d.level, d.position, d.markPos, d.duration, []⟩

/-- One iteration of the `enter` callback after a descriptor was computed
(src/main.ts lines 225-238): pop, then open the new task as the new
`currentParent`. -/
def buildStep (st : List Frame) (d : Desc) : List Frame :=
  newFrame d :: popTo d.level st

/-- The synthetic root `{ level: 0, children: [] }` (src/main.ts lines
194-197). -/
def rootFrame : Frame :=
  ⟨0, 0, none, none, []⟩

/-- Closing every remaining open frame into its parent at the end of the
iteration; the root's collected children are the produced forest. -/
def closeAll : List Frame → List TimedTask
  | [] => []
  | [f] => f.childrenRev.reverse
  | f :: g :: gs => closeAll (pushChild (closeFrame f) g :: gs)
termination_by st => st.length
decreasing_by simp [List.length_cons]

/-- Embeds the tree-building phase of `buildDecorations` (src/main.ts lines
191-245) on a stream of descriptors: fold the stack step over the stream
and read off the root's children. -/
def buildForest (ds : List Desc) : List TimedTask :=
  closeAll (ds.foldl buildStep [rootFrame])

mutual

/-- Number of nodes of a tree. -/
def sizeTree : TimedTask → Nat
  | .mk _ _ _ _ c => 1 + sizeForest c

/-- Number of nodes of a forest. -/
def sizeForest : List TimedTask → Nat
  | [] => 0
  | t :: ts => sizeTree t + sizeForest ts

end

/-- Pre-order flattening of a forest into (parent pointer, descriptor)
entries.  `par` is the parent pointer for the roots of `ts` (an index into
the overall flattened list, `none` for the synthetic root); `i` is the
index the first entry of `ts` will occupy.  Every node's entry records the
index of its parent's entry. -/
def flatWP (par : Option Nat) (i : Nat) : List TimedTask → List (Option Nat × Desc)
  | [] => []
  | .mk l p m d c :: ts =>
    (par, ⟨l, p, m, d⟩) ::
      (flatWP (some i) (i + 1) c ++ flatWP par (i + 1 + sizeForest c) ts)

/-- Flattening of the open frames sitting above the root, bottom first:
each frame's entry, then its already-collected children (processed after
the frame itself and before the frame above it), then the frames above,
whose parent pointer is this frame's index. -/
def framesFlat (par : Option Nat) (i : Nat) : List Frame → List (Option Nat × Desc)
  | [] => []
  | f :: fs =>
    (par, frameDesc f) ::
      (flatWP (some i) (i + 1) f.childrenRev.reverse ++
        framesFlat (some i) (i + 1 + sizeForest f.childrenRev.reverse) fs)

/-- Flattening of a whole builder state, given bottom-first (the root frame
first): the root itself has no entry; its collected children come first,
then the open frames. -/
def stateFlatRev : List Frame → List (Option Nat × Desc)
  | [] => []
  | b :: fs =>
    flatWP none 0 b.childrenRev.reverse ++
      framesFlat none (sizeForest b.childrenRev.reverse) fs

/-- The parent pointer and next free index after flattening a run of
frames: threading of `framesFlat`'s arguments. -/
def frameCtx : Option Nat → Nat → List Frame → Option Nat × Nat
  | par, i, [] => (par, i)
  | _, i, f :: fs =>
    frameCtx (some i) (i + 1 + sizeForest f.childrenRev.reverse) fs

theorem flatWP_length :
    ∀ (ts : List TimedTask) (par : Option Nat) (i : Nat),
      (flatWP par i ts).length = sizeForest ts
  | [], _, _ => by simp [flatWP, sizeForest]
  | .mk l p m d c :: ts, par, i => by
    rw [flatWP, sizeForest, sizeTree]
    simp [flatWP_length c, flatWP_length ts]
    omega

theorem flatWP_append :
    ∀ (ts us : List TimedTask) (par : Option Nat) (i : Nat),
      flatWP par i (ts ++ us) =
        flatWP par i ts ++ flatWP par (i + sizeForest ts) us
  | [], us, par, i => by
    rw [List.nil_append, flatWP, sizeForest, List.nil_append, Nat.add_zero]
  | .mk l p m d c :: ts, us, par, i => by
    rw [List.cons_append, flatWP, flatWP, flatWP_append ts us par (i + 1 + sizeForest c),
      sizeForest, sizeTree]
    simp [List.append_assoc]
    have heq : i + 1 + sizeForest c + sizeForest ts =
        i + (1 + sizeForest c + sizeForest ts) := by omega
    rw [heq]

theorem framesFlat_append :
    ∀ (fs gs : List Frame) (par : Option Nat) (i : Nat),
      framesFlat par i (fs ++ gs) =
        framesFlat par i fs ++
          framesFlat (frameCtx par i fs).1 (frameCtx par i fs).2 gs
  | [], gs, par, i => by rw [List.nil_append, framesFlat, frameCtx, List.nil_append]
  | f :: fs, gs, par, i => by
    rw [List.cons_append, framesFlat, framesFlat, frameCtx,
      framesFlat_append fs gs (some i) (i + 1 + sizeForest f.childrenRev.reverse)]
    simp [List.append_assoc]

theorem frameCtx_snd :
    ∀ (fs : List Frame) (par : Option Nat) (i : Nat),
      (frameCtx par i fs).2 = i + (framesFlat par i fs).length
  | [], par, i => by rw [frameCtx, framesFlat]; rfl
  | f :: fs, par, i => by
    rw [frameCtx, framesFlat,
      frameCtx_snd fs (some i) (i + 1 + sizeForest f.childrenRev.reverse)]
    simp [flatWP_length]
    omega

/-- Index of the last element of `levels` strictly below `lvl` — the
nearest preceding smaller level in stream order — or `none` when no
element is smaller. -/
def lastBelow : List Nat → Nat → Option Nat
  | [], _ => none
  | a :: as, lvl =>
    match lastBelow as lvl with
    | some j => some (j + 1)
    | none => if a < lvl then some 0 else none

theorem lastBelow_none_of_ge :
    ∀ (L : List Nat) (lvl : Nat), (∀ x ∈ L, lvl ≤ x) → lastBelow L lvl = none
  | [], _, _ => rfl
  | a :: as, lvl, h => by
    rw [lastBelow, lastBelow_none_of_ge as lvl (fun x hx => h x (List.mem_cons_of_mem a hx))]
    rw [if_neg (by have := h a (List.mem_cons_self a as); omega)]

theorem lastBelow_none_spec :
    ∀ (L : List Nat) (lvl : Nat), lastBelow L lvl = none →
      ∀ (l x : Nat), L[l]? = some x → lvl ≤ x
  | [], _, _, l, x, hx => by simp at hx
  | a :: as, lvl, h, l, x, hx => by
    rw [lastBelow] at h
    rcases hr : lastBelow as lvl with _ | j
    · rw [hr] at h
      by_cases ha : a < lvl
      · rw [if_pos ha] at h; exact Option.noConfusion h
      · cases l with
        | zero => simp at hx; omega
        | succ n =>
          simp only [List.getElem?_cons_succ] at hx
          exact lastBelow_none_spec as lvl hr n x hx
    · rw [hr] at h; exact Option.noConfusion h

theorem lastBelow_some_spec :
    ∀ (L : List Nat) (lvl : Nat) (j : Nat), lastBelow L lvl = some j →
      ∃ x, L[j]? = some x ∧ x < lvl ∧
        ∀ (l y : Nat), j < l → L[l]? = some y → lvl ≤ y
  | [], lvl, j, h => by simp [lastBelow] at h
  | a :: as, lvl, j, h => by
    rw [lastBelow] at h
    rcases hr : lastBelow as lvl with _ | j0
    · rw [hr] at h
      by_cases ha : a < lvl
      · rw [if_pos ha] at h
        obtain rfl : (0 : Nat) = j := by simpa using h
        refine ⟨a, by simp, ha, ?_⟩
        intro l y hl hy
        cases l with
        | zero => omega
        | succ n =>
          simp only [List.getElem?_cons_succ] at hy
          exact lastBelow_none_spec as lvl hr n y hy
      · rw [if_neg ha] at h; exact Option.noConfusion h
    · rw [hr] at h
      obtain rfl : j0 + 1 = j := by simpa using h
      obtain ⟨x, hx1, hx2, hx3⟩ := lastBelow_some_spec as lvl j0 hr
      refine ⟨x, by simpa using hx1, hx2, ?_⟩
      intro l y hl hy
      cases l with
      | zero => omega
      | succ n =>
        simp only [List.getElem?_cons_succ] at hy
        exact hx3 n y (by omega) hy

theorem lastBelow_append_ge :
    ∀ (L1 L2 : List Nat) (lvl : Nat), (∀ x ∈ L2, lvl ≤ x) →
      lastBelow (L1 ++ L2) lvl = lastBelow L1 lvl
  | [], L2, lvl, h => by
    rw [List.nil_append, lastBelow_none_of_ge L2 lvl h]; rfl
  | a :: L1, L2, lvl, h => by
    rw [List.cons_append, lastBelow, lastBelow,
      lastBelow_append_ge L1 L2 lvl h]

theorem lastBelow_append_singleton_lt :
    ∀ (L : List Nat) (a lvl : Nat), a < lvl →
      lastBelow (L ++ [a]) lvl = some L.length
  | [], a, lvl, h => by simp [lastBelow, h]
  | b :: L, a, lvl, h => by
    rw [List.cons_append, lastBelow, lastBelow_append_singleton_lt L a lvl h]
    simp

/-- The reference stream the C3 claim describes: each descriptor paired
with the index of the nearest preceding descriptor of strictly smaller
level (`none` when no preceding level is smaller, i.e. the parent is the
synthetic root).  `pre` carries the levels of the already-processed
prefix. -/
def zwp : List Nat → List Desc → List (Option Nat × Desc)
  | _, [] => []
  | pre, d :: ds => (lastBelow pre d.level, d) :: zwp (pre ++ [d.level]) ds

/-- The whole stream annotated with nearest-preceding-smaller-level
parent indices. -/
def streamWP (ds : List Desc) : List (Option Nat × Desc) :=
  zwp [] ds

theorem zwp_snd : ∀ (ds : List Desc) (pre : List Nat),
    (zwp pre ds).map (fun e => e.2) = ds
  | [], _ => rfl
  | d :: ds, pre => by
    rw [zwp, List.map_cons, zwp_snd ds (pre ++ [d.level])]

theorem zwp_append : ∀ (ds : List Desc) (pre : List Nat) (d : Desc),
    zwp pre (ds ++ [d]) =
      zwp pre ds ++ [(lastBelow (pre ++ ds.map Desc.level) d.level, d)]
  | [], pre, d => by simp [zwp]
  | e :: ds, pre, d => by
    rw [List.cons_append, zwp, zwp, zwp_append ds (pre ++ [e.level]) d,
      List.cons_append, List.map_cons]
    simp [List.append_assoc]

theorem zwp_get? : ∀ (ds : List Desc) (pre : List Nat) (k : Nat) (d : Desc),
    ds[k]? = some d →
      (zwp pre ds)[k]? =
        some (lastBelow (pre ++ (ds.take k).map Desc.level) d.level, d)
  | [], _, k, d, h => by simp at h
  | e :: ds, pre, 0, d, h => by
    simp only [List.getElem?_cons_zero] at h
    cases h
    simp [zwp]
  | e :: ds, pre, k + 1, d, h => by
    simp only [List.getElem?_cons_succ] at h
    rw [zwp, List.getElem?_cons_succ,
      zwp_get? ds (pre ++ [e.level]) k d h, List.take_succ_cons, List.map_cons]
    simp [List.append_assoc]

mutual

/-- Well-leveled tree: every child's level strictly exceeds its parent's,
recursively. -/
def TreeWL : TimedTask → Prop
  | .mk l _ _ _ c => ForestGT l c

/-- All roots of the forest have level strictly above `n` and are
well-leveled. -/
def ForestGT : Nat → List TimedTask → Prop
  | _, [] => True
  | n, t :: ts => n < t.level ∧ TreeWL t ∧ ForestGT n ts

end

theorem forestGT_iff : ∀ (ts : List TimedTask) (n : Nat),
    ForestGT n ts ↔ ∀ t ∈ ts, n < t.level ∧ TreeWL t
  | [], n => by simp [ForestGT]
  | t :: ts, n => by
    rw [ForestGT, forestGT_iff ts n]
    constructor
    · rintro ⟨h1, h2, h3⟩ u hu
      rcases List.mem_cons.mp hu with rfl | hu
      · exact ⟨h1, h2⟩
      · exact h3 u hu
    · intro h
      exact ⟨(h t (List.mem_cons_self t ts)).1, (h t (List.mem_cons_self t ts)).2,
        fun u hu => h u (List.mem_cons_of_mem t hu)⟩

theorem forestGT_reverse {ts : List TimedTask} {n : Nat} (h : ForestGT n ts) :
    ForestGT n ts.reverse := by
  rw [forestGT_iff] at h ⊢
  intro t ht
  exact h t (List.mem_reverse.mp ht)

theorem flatWP_ge :
    ∀ (ts : List TimedTask) (par : Option Nat) (i lvl : Nat),
      (∀ t ∈ ts, lvl ≤ t.level ∧ TreeWL t) →
      ∀ e ∈ flatWP par i ts, lvl ≤ e.2.level
  | [], _, _, _, _, e, he => by simp [flatWP] at he
  | .mk l p m d c :: ts, par, i, lvl, h, e, he => by
    rw [flatWP] at he
    have hhead := h (.mk l p m d c) (List.mem_cons_self _ _)
    rcases List.mem_cons.mp he with rfl | he
    · exact hhead.1
    · rcases List.mem_append.mp he with he | he
      · have hwl : ForestGT l c := hhead.2
        rw [forestGT_iff] at hwl
        refine flatWP_ge c (some i) (i + 1) lvl ?_ e he
        intro t ht
        have := hwl t ht
        have hl : lvl ≤ TimedTask.level (.mk l p m d c) := hhead.1
        rw [TimedTask.level] at hl
        exact ⟨by omega, this.2⟩
      · exact flatWP_ge ts par (i + 1 + sizeForest c) lvl
          (fun t ht => h t (List.mem_cons_of_mem _ ht)) e he

theorem frameDesc_pushChild (t : TimedTask) (g : Frame) :
    frameDesc (pushChild t g) = frameDesc g := rfl

theorem framesFlat_merge (par : Option Nat) (i : Nat) (g f : Frame) :
    framesFlat par i [pushChild (closeFrame f) g] = framesFlat par i [g, f] := by
  rw [framesFlat, framesFlat, framesFlat, framesFlat, frameDesc_pushChild]
  have hcr : (pushChild (closeFrame f) g).childrenRev.reverse =
      g.childrenRev.reverse ++ [closeFrame f] := by
    simp [pushChild]
  rw [hcr, flatWP_append]
  have hclose : ∀ (P : Option Nat) (J : Nat),
      flatWP P J [closeFrame f] =
        (P, frameDesc f) :: (flatWP (some J) (J + 1) f.childrenRev.reverse ++ []) := by
    intro P J
    rw [closeFrame, flatWP, flatWP]
    rfl
  rw [hclose]
  have hsz : sizeForest (g.childrenRev.reverse ++ [closeFrame f]) =
      sizeForest g.childrenRev.reverse + sizeForest [closeFrame f] := by
    have : ∀ (ts us : List TimedTask),
        sizeForest (ts ++ us) = sizeForest ts + sizeForest us := by
      intro ts
      induction ts with
      | nil => intro us; simp [sizeForest]
      | cons t ts ih => intro us; rw [List.cons_append, sizeForest, sizeForest, ih]; omega
    exact this _ _
  simp [List.append_assoc, Nat.add_assoc, framesFlat]

theorem stateFlatRev_merge_root (b f : Frame) :
    stateFlatRev [pushChild (closeFrame f) b] = stateFlatRev [b, f] := by
  rw [stateFlatRev, stateFlatRev, framesFlat, framesFlat, framesFlat]
  have hcr : (pushChild (closeFrame f) b).childrenRev.reverse =
      b.childrenRev.reverse ++ [closeFrame f] := by
    simp [pushChild]
  rw [hcr, flatWP_append]
  have hclose : ∀ (P : Option Nat) (J : Nat),
      flatWP P J [closeFrame f] =
        (P, frameDesc f) :: (flatWP (some J) (J + 1) f.childrenRev.reverse ++ []) := by
    intro P J
    rw [closeFrame, flatWP, flatWP]
    rfl
  rw [hclose]
  simp [List.append_assoc, Nat.add_assoc]

theorem stateFlatRev_merge (X : List Frame) (g f : Frame) :
    stateFlatRev (X ++ [pushChild (closeFrame f) g]) = stateFlatRev (X ++ [g, f]) := by
  cases X with
  | nil =>
    rw [List.nil_append, List.nil_append]
    exact stateFlatRev_merge_root g f
  | cons b xs =>
    rw [List.cons_append, List.cons_append, stateFlatRev, stateFlatRev,
      framesFlat_append, framesFlat_append, framesFlat_merge]

theorem sizeForest_append : ∀ (ts us : List TimedTask),
    sizeForest (ts ++ us) = sizeForest ts + sizeForest us
  | [], us => by simp [sizeForest]
  | t :: ts, us => by
    rw [List.cons_append, sizeForest, sizeForest, sizeForest_append ts us]
    omega

theorem closeAll_flat : ∀ st : List Frame,
    flatWP none 0 (closeAll st) = stateFlatRev st.reverse
  | [] => by simp [closeAll, stateFlatRev, flatWP]
  | [f] => by
    rw [closeAll, List.reverse_singleton, stateFlatRev, framesFlat]
    simp
  | f :: g :: gs => by
    rw [closeAll, closeAll_flat (pushChild (closeFrame f) g :: gs)]
    have h1 : (pushChild (closeFrame f) g :: gs).reverse =
        gs.reverse ++ [pushChild (closeFrame f) g] := by
      simp
    have h2 : (f :: g :: gs).reverse = gs.reverse ++ [g, f] := by
      simp
    rw [h1, h2, stateFlatRev_merge]
termination_by st => st.length
decreasing_by simp [List.length_cons]

theorem pushChild_level (t : TimedTask) (g : Frame) :
    (pushChild t g).level = g.level := rfl

theorem closeFrame_level (f : Frame) :
    (closeFrame f).level = f.level := rfl

/-- Invariant of the builder's parent-cursor stack (given top-first, the
cursor's frame at the head): nonempty, the synthetic root at the bottom
with level 0, levels strictly increasing from root to cursor, each frame's
collected children well-leveled strictly above the frame's own level, and
each frame's collected children at or above the level of the frame
directly above it. -/
structure StackInv (st : List Frame) : Prop where
  nonempty : st ≠ []
  rootLevel : ∀ f, st.getLast? = some f → f.level = 0
  decreasing : List.Chain' (fun a b => b.level < a.level) st
  childrenWL : ∀ f ∈ st, ForestGT f.level f.childrenRev
  childrenGE : List.Chain' (fun a b => ∀ t ∈ b.childrenRev, a.level ≤ t.level) st

/-- The head frame's collected children all have level at least `lvl`;
holds vacuously between build steps, where the head (the most recently
created task) has no children yet, and is maintained by the pop loop. -/
def HeadChildrenGE (lvl : Nat) : List Frame → Prop
  | [] => True
  | f :: _ => ∀ t ∈ f.childrenRev, lvl ≤ t.level

theorem popTo_spec (lvl : Nat) (hlvl : 1 ≤ lvl) :
    ∀ st : List Frame, StackInv st → HeadChildrenGE lvl st →
      StackInv (popTo lvl st) ∧ HeadChildrenGE lvl (popTo lvl st) ∧
      stateFlatRev (popTo lvl st).reverse = stateFlatRev st.reverse ∧
      ∃ g rest2, popTo lvl st = g :: rest2 ∧ g.level < lvl
  | [], inv, _ => absurd rfl inv.nonempty
  | [f], inv, hpre => by
    have hf0 : f.level = 0 := inv.rootLevel f (by simp)
    rw [popTo, if_neg (by omega)]
    exact ⟨inv, hpre, rfl, f, [], rfl, by omega⟩
  | f :: g :: gs, inv, hpre => by
    by_cases hf : lvl ≤ f.level
    · rw [popTo, if_pos hf]
      have hdec := inv.decreasing
      rw [List.chain'_cons] at hdec
      have hge := inv.childrenGE
      rw [List.chain'_cons] at hge
      have hwl_f := inv.childrenWL f (by simp)
      have hwl_g := inv.childrenWL g (by simp)
      have inv1 : StackInv (pushChild (closeFrame f) g :: gs) := by
        refine ⟨by simp, ?_, ?_, ?_, ?_⟩
        · intro x hx
          cases gs with
          | nil =>
            simp at hx
            have := inv.rootLevel g (by simp)
            rw [← hx, pushChild_level]
            exact this
          | cons y ys =>
            rw [List.getLast?_cons_cons] at hx
            exact inv.rootLevel x (by rw [List.getLast?_cons_cons,
              List.getLast?_cons_cons]; exact hx)
        · cases gs with
          | nil => simp
          | cons y ys =>
            rw [List.chain'_cons]
            have := hdec.2
            rw [List.chain'_cons] at this
            exact ⟨by rw [pushChild_level]; exact this.1, this.2⟩
        · intro x hx
          rcases List.mem_cons.mp hx with rfl | hx
          · rw [pushChild_level]
            show ForestGT g.level (closeFrame f :: g.childrenRev)
            rw [ForestGT]
            refine ⟨by rw [closeFrame_level]; exact hdec.1, ?_, hwl_g⟩
            rw [closeFrame, TreeWL]
            exact forestGT_reverse hwl_f
          · exact inv.childrenWL x (by simp [hx])
        · cases gs with
          | nil => simp
          | cons y ys =>
            rw [List.chain'_cons]
            have := hge.2
            rw [List.chain'_cons] at this
            exact ⟨by rw [pushChild_level]; exact this.1, this.2⟩
      have hpre1 : HeadChildrenGE lvl (pushChild (closeFrame f) g :: gs) := by
        rw [HeadChildrenGE]
        intro t ht
        rcases List.mem_cons.mp ht with rfl | ht
        · rw [closeFrame_level]; exact hf
        · exact le_trans hf (hge.1 t ht)
      obtain ⟨ha, hb, hc, hd⟩ :=
        popTo_spec lvl hlvl (pushChild (closeFrame f) g :: gs) inv1 hpre1
      refine ⟨ha, hb, ?_, hd⟩
      rw [hc]
      have h1 : (pushChild (closeFrame f) g :: gs).reverse =
          gs.reverse ++ [pushChild (closeFrame f) g] := by simp
      have h2 : (f :: g :: gs).reverse = gs.reverse ++ [g, f] := by simp
      rw [h1, h2]
      exact stateFlatRev_merge gs.reverse g f
    · rw [popTo, if_neg hf]
      exact ⟨inv, hpre, rfl, f, g :: gs, rfl, by omega⟩
termination_by st => st.length
decreasing_by simp [List.length_cons]

/-- Parent pointer the next pushed frame's entry receives: the index of
the current top frame's entry (`none` when only the root is open). -/
def parentPtrOf : List Frame → Option Nat
  | [] => none
  | b :: fs => (frameCtx none (sizeForest b.childrenRev.reverse) fs).1

theorem frameCtx_append : ∀ (fs gs : List Frame) (par : Option Nat) (i : Nat),
    frameCtx par i (fs ++ gs) =
      frameCtx (frameCtx par i fs).1 (frameCtx par i fs).2 gs
  | [], gs, par, i => by rw [List.nil_append, frameCtx]
  | f :: fs, gs, par, i => by
    rw [List.cons_append, frameCtx, frameCtx,
      frameCtx_append fs gs (some i) (i + 1 + sizeForest f.childrenRev.reverse)]

theorem stateFlatRev_snoc (b : Frame) (fs : List Frame) (d : Desc) :
    stateFlatRev ((b :: fs) ++ [newFrame d]) =
      stateFlatRev (b :: fs) ++ [(parentPtrOf (b :: fs), d)] := by
  rw [List.cons_append, stateFlatRev, stateFlatRev, framesFlat_append, parentPtrOf]
  have hnf : ∀ (P : Option Nat) (J : Nat),
      framesFlat P J [newFrame d] = [(P, d)] := by
    intro P J
    rw [framesFlat, framesFlat, newFrame]
    simp [flatWP, frameDesc]
  rw [hnf]
  simp [List.append_assoc]

theorem lastBelow_concat3 (A B : List Nat) (x lvl : Nat) (hx : x < lvl)
    (hB : ∀ y ∈ B, lvl ≤ y) :
    lastBelow (A ++ x :: B) lvl = some A.length := by
  have hsplit : A ++ x :: B = (A ++ [x]) ++ B := by simp
  rw [hsplit, lastBelow_append_ge _ _ _ hB, lastBelow_append_singleton_lt _ _ _ hx]

theorem lastBelow_concat4 (A1 A2 B : List Nat) (x lvl : Nat) (hx : x < lvl)
    (hB : ∀ y ∈ B, lvl ≤ y) :
    lastBelow (A1 ++ (A2 ++ x :: B)) lvl = some (A1.length + A2.length) := by
  rw [← List.append_assoc, lastBelow_concat3 (A1 ++ A2) B x lvl hx hB,
    List.length_append]

/-- The nearest-preceding-smaller computation over the flattened state
coincides with the stack's parent pointer: all flattened entries after the
top frame's entry are its collected children, whose levels are at least
`lvl`, while the top frame's own level is below `lvl`. -/
theorem lastBelow_state (b : Frame) (fs0 : List Frame) (h : Frame) (lvl : Nat)
    (hh : h.level < lvl)
    (hch : ∀ t ∈ h.childrenRev, lvl ≤ t.level ∧ TreeWL t) :
    lastBelow ((stateFlatRev (b :: (fs0 ++ [h]))).map (fun e => e.2.level)) lvl =
      parentPtrOf (b :: (fs0 ++ [h])) := by
  have hB : ∀ x ∈ (flatWP (some (frameCtx none (sizeForest b.childrenRev.reverse) fs0).2)
      ((frameCtx none (sizeForest b.childrenRev.reverse) fs0).2 + 1)
      h.childrenRev.reverse).map (fun e => e.2.level), lvl ≤ x := by
    intro x hx
    obtain ⟨e, he, rfl⟩ := List.mem_map.mp hx
    refine flatWP_ge h.childrenRev.reverse _ _ lvl ?_ e he
    intro t ht
    exact hch t (List.mem_reverse.mp ht)
  rw [stateFlatRev, framesFlat_append, parentPtrOf, frameCtx_append,
    frameCtx, frameCtx, framesFlat, framesFlat, List.append_nil]
  simp only [List.map_append, List.map_cons, frameDesc]
  rw [lastBelow_concat4 _ _ _ _ _ hh hB]
  have hlen1 : ((flatWP none 0 b.childrenRev.reverse).map
      (fun e => e.2.level)).length = sizeForest b.childrenRev.reverse := by
    rw [List.length_map, flatWP_length]
  have hlen2 : ((framesFlat none (sizeForest b.childrenRev.reverse) fs0).map
      (fun e => e.2.level)).length =
      (framesFlat none (sizeForest b.childrenRev.reverse) fs0).length :=
    List.length_map _ _
  rw [hlen1, hlen2, frameCtx_snd]

theorem forestGT_nil (n : Nat) : ForestGT n [] := by
  rw [ForestGT]
  trivial

theorem lastBelow_state_root (h : Frame) (lvl : Nat)
    (hch : ∀ t ∈ h.childrenRev, lvl ≤ t.level ∧ TreeWL t) :
    lastBelow ((stateFlatRev [h]).map (fun e => e.2.level)) lvl = none := by
  rw [stateFlatRev, framesFlat, List.append_nil]
  apply lastBelow_none_of_ge
  intro x hx
  obtain ⟨e, he, rfl⟩ := List.mem_map.mp hx
  refine flatWP_ge h.childrenRev.reverse _ _ lvl ?_ e he
  intro t ht
  exact hch t (List.mem_reverse.mp ht)

theorem zwp_map_level : ∀ (pre : List Desc) (acc : List Nat),
    (zwp acc pre).map (fun e => e.2.level) = pre.map Desc.level
  | [], _ => rfl
  | d :: ds, acc => by
    rw [zwp, List.map_cons, List.map_cons, zwp_map_level ds (acc ++ [d.level])]

/-- Global invariant tying a builder state (top-first) to the processed
descriptor prefix: the stack invariant holds, the cursor frame has no
collected children yet, and the state flattens to the
nearest-preceding-smaller reference stream of the prefix. -/
def GInv (st : List Frame) (pre : List Desc) : Prop :=
  StackInv st ∧ (∀ f rest, st = f :: rest → f.childrenRev = []) ∧
  stateFlatRev st.reverse = zwp [] pre

theorem buildStep_ginv (st : List Frame) (pre : List Desc) (d : Desc)
    (hg : GInv st pre) (hlvl : 1 ≤ d.level) :
    GInv (buildStep st d) (pre ++ [d]) := by
  obtain ⟨inv, hhead, hflat⟩ := hg
  have hpre0 : HeadChildrenGE d.level st := by
    cases st with
    | nil => rw [HeadChildrenGE]; trivial
    | cons f rest =>
      rw [HeadChildrenGE]
      intro t ht
      rw [hhead f rest rfl] at ht
      exact absurd ht (List.not_mem_nil t)
  obtain ⟨inv1, hpre1, hsf, h, rest, hst1, hh⟩ := popTo_spec d.level hlvl st inv hpre0
  have hchWL : ∀ t ∈ h.childrenRev, d.level ≤ t.level ∧ TreeWL t := by
    intro t ht
    constructor
    · have hx := hpre1
      rw [hst1, HeadChildrenGE] at hx
      exact hx t ht
    · have hw := inv1.childrenWL h (by rw [hst1]; exact List.mem_cons_self _ _)
      rw [forestGT_iff] at hw
      exact (hw t ht).2
  refine ⟨?_, ?_, ?_⟩
  · rw [buildStep, hst1]
    refine ⟨by simp, ?_, ?_, ?_, ?_⟩
    · intro x hx
      rw [List.getLast?_cons_cons] at hx
      exact inv1.rootLevel x (by rw [hst1]; exact hx)
    · rw [List.chain'_cons]
      refine ⟨hh, ?_⟩
      rw [← hst1]
      exact inv1.decreasing
    · intro x hx
      rcases List.mem_cons.mp hx with rfl | hx
      · exact forestGT_nil _
      · exact inv1.childrenWL x (by rw [hst1]; exact hx)
    · rw [List.chain'_cons]
      constructor
      · intro t ht
        have hx := hpre1
        rw [hst1, HeadChildrenGE] at hx
        exact hx t ht
      · rw [← hst1]
        exact inv1.childrenGE
  · intro f rest2 heq
    rw [buildStep] at heq
    injection heq with h1 _
    rw [← h1]
    rfl
  · rw [buildStep, hst1, List.reverse_cons, zwp_append pre [] d, List.nil_append,
      ← hflat]
    cases rest with
    | nil =>
      have hrev : (h :: ([] : List Frame)).reverse = [h] := by simp
      rw [hrev]
      have hs1 : stateFlatRev [h] = stateFlatRev st.reverse := by
        rw [← hrev, ← hst1]
        exact hsf
      have hsnoc := stateFlatRev_snoc h [] d
      rw [hsnoc, hs1]
      have hP : parentPtrOf [h] = none := rfl
      have hL : lastBelow ((stateFlatRev st.reverse).map (fun e => e.2.level))
          d.level = none := by
        rw [← hs1]
        exact lastBelow_state_root h d.level hchWL
      rw [hP, ← zwp_map_level pre [], ← hflat, hL]
    | cons r rs =>
      rcases hY : (r :: rs).reverse with _ | ⟨b, fs0⟩
      · exact absurd hY (by simp)
      · have hrev : (h :: r :: rs).reverse = b :: (fs0 ++ [h]) := by
          rw [List.reverse_cons, hY, List.cons_append]
        rw [hrev]
        have hs1 : stateFlatRev (b :: (fs0 ++ [h])) = stateFlatRev st.reverse := by
          rw [← hrev, ← hst1]
          exact hsf
        have hsnoc := stateFlatRev_snoc b (fs0 ++ [h]) d
        rw [hsnoc, hs1]
        have hL : lastBelow ((stateFlatRev st.reverse).map (fun e => e.2.level))
            d.level = parentPtrOf (b :: (fs0 ++ [h])) := by
          rw [← hs1]
          exact lastBelow_state b fs0 h d.level hh hchWL
        rw [← zwp_map_level pre [], ← hflat, hL]

theorem foldl_ginv : ∀ (ds : List Desc) (st : List Frame) (pre : List Desc),
    GInv st pre → (∀ d ∈ ds, 1 ≤ d.level) →
    GInv (ds.foldl buildStep st) (pre ++ ds)
  | [], st, pre, hg, _ => by rw [List.foldl_nil, List.append_nil]; exact hg
  | d :: ds, st, pre, hg, hlev => by
    rw [List.foldl_cons]
    have h1 := buildStep_ginv st pre d hg (hlev d (List.mem_cons_self _ _))
    have h2 := foldl_ginv ds (buildStep st d) (pre ++ [d]) h1
      (fun e he => hlev e (List.mem_cons_of_mem _ he))
    rw [List.append_assoc, List.singleton_append] at h2
    exact h2

theorem ginv_init : GInv [rootFrame] [] := by
  refine ⟨⟨by simp, ?_, ?_, ?_, ?_⟩, ?_, ?_⟩
  · intro f hf
    simp at hf
    rw [← hf]
    rfl
  · simp
  · intro f hf
    simp at hf
    rw [hf]
    exact forestGT_nil _
  · simp
  · intro f rest heq
    injection heq with h1 _
    rw [← h1]
    rfl
  · simp [stateFlatRev, flatWP, framesFlat, zwp, rootFrame]

/-- Main builder correspondence: on a stream whose levels are all at least
1, the forest the tree builder produces flattens (in pre-order, with
parent-entry indices) to exactly the input stream annotated with
nearest-preceding-smaller-level parent indices. -/
theorem buildForest_flat (ds : List Desc) (hlev : ∀ d ∈ ds, 1 ≤ d.level) :
    flatWP none 0 (buildForest ds) = streamWP ds := by
  rw [buildForest, closeAll_flat, streamWP]
  have h := foldl_ginv ds [rootFrame] [] ginv_init hlev
  rw [List.nil_append] at h
  exact h.2.2

/-- The C3 property of the built forest's pre-order flattening `ws`: the
entries are exactly the descriptor stream in order (so no node is lost or
duplicated — no orphans), and each entry's parent pointer designates a
preceding entry of strictly smaller level that is the nearest such one
(every entry strictly between has level at least the node's own); a `none`
pointer — attachment to the synthetic level-0 root — means no preceding
entry at all has smaller level. -/
def NearestParentSpec (ds : List Desc) : Prop :=
  (flatWP none 0 (buildForest ds)).map (fun e => e.2) = ds ∧
  ∀ (k : Nat) (pd : Option Nat) (c : Desc),
    (flatWP none 0 (buildForest ds))[k]? = some (pd, c) →
    (∀ j : Nat, pd = some j →
      j < k ∧
      (∃ (pp : Option Nat) (pe : Desc),
        (flatWP none 0 (buildForest ds))[j]? = some (pp, pe) ∧
          pe.level < c.level) ∧
      (∀ (l : Nat) (qp : Option Nat) (qe : Desc), j < l → l < k →
        (flatWP none 0 (buildForest ds))[l]? = some (qp, qe) →
          c.level ≤ qe.level)) ∧
    (pd = none →
      ∀ (l : Nat) (qp : Option Nat) (qe : Desc), l < k →
        (flatWP none 0 (buildForest ds))[l]? = some (qp, qe) →
          c.level ≤ qe.level)

theorem getElem?_some_lt_length :
    ∀ (L : List Nat) (n x : Nat), L[n]? = some x → n < L.length := by
  intro L n x hx
  by_contra hc
  rw [List.getElem?_eq_none (by omega)] at hx
  exact Option.noConfusion hx

/-- C3: for every descriptor stream whose levels are all at least 1, the
tree builder attaches each node to a parent of strictly smaller level,
that parent is the nearest preceding node (in stream order, or the
synthetic level-0 root) with strictly smaller level, and no node is
orphaned: the flattened forest lists exactly the stream's descriptors in
order, each with such a parent pointer. -/
theorem buildForest_parents (ds : List Desc) (hlev : ∀ d ∈ ds, 1 ≤ d.level) :
    NearestParentSpec ds := by
  have hws := buildForest_flat ds hlev
  rw [streamWP] at hws
  rw [NearestParentSpec, hws]
  refine ⟨zwp_snd ds [], ?_⟩
  intro k pd c hk
  have hdk : ds[k]? = some c := by
    rw [← zwp_snd ds [], List.getElem?_map, hk]
    rfl
  have hzk := zwp_get? ds [] k c hdk
  rw [List.nil_append, hk] at hzk
  have hpd : pd = lastBelow ((ds.take k).map Desc.level) c.level := by
    have h2 := hzk
    simp only [Option.some.injEq, Prod.mk.injEq] at h2
    exact h2.1
  have hlev2 : ∀ (l : Nat) (qp : Option Nat) (qe : Desc),
      (zwp [] ds)[l]? = some (qp, qe) → ds[l]? = some qe := by
    intro l qp qe hq
    rw [← zwp_snd ds [], List.getElem?_map, hq]
    rfl
  have hlen : (zwp [] ds).length = ds.length := by
    conv_rhs => rw [← zwp_snd ds []]
    rw [List.length_map]
  have hk2 : k < ds.length := by
    by_contra hc
    rw [List.getElem?_eq_none (by omega)] at hdk
    exact Option.noConfusion hdk
  have htakemap : ∀ (l : Nat) (qe : Desc), l < k → ds[l]? = some qe →
      ((ds.take k).map Desc.level)[l]? = some qe.level := by
    intro l qe hlk hdl
    rw [List.getElem?_map, List.getElem?_take_of_lt hlk, hdl]
    rfl
  constructor
  · intro j hj
    rw [hj] at hpd
    obtain ⟨x, hxj, hxlt, hafter⟩ := lastBelow_some_spec _ _ _ hpd.symm
    have hjk : j < k := by
      have hjlen := getElem?_some_lt_length _ _ _ hxj
      rw [List.length_map, List.length_take] at hjlen
      omega
    refine ⟨hjk, ?_, ?_⟩
    · have hjlen2 : j < (zwp [] ds).length := by rw [hlen]; omega
      obtain ⟨e, he⟩ : ∃ e, (zwp [] ds)[j]? = some e :=
        ⟨_, List.getElem?_eq_getElem hjlen2⟩
      have hdj : ds[j]? = some e.2 := hlev2 j e.1 e.2 (by rw [he])
      refine ⟨e.1, e.2, by rw [he], ?_⟩
      have hx2 := htakemap j e.2 hjk hdj
      rw [hx2] at hxj
      have he2 : e.2.level = x := by simpa using hxj
      omega
    · intro l qp qe hjl hlk hql
      exact hafter l qe.level hjl (htakemap l qe hlk (hlev2 l qp qe hql))
  · intro hnone
    rw [hnone] at hpd
    intro l qp qe hlk hql
    exact lastBelow_none_spec _ _ hpd.symm l qe.level
      (htakemap l qe hlk (hlev2 l qp qe hql))

/-- Witness for C3 at the stream `[level 1, level 2, level 2]` (one task
with two children). -/
theorem buildForest_parents_witness :
    (∀ d ∈ ([⟨1, 5, none, none⟩, ⟨2, 9, none, none⟩,
        ⟨2, 14, none, none⟩] : List Desc), 1 ≤ d.level) ∧
    NearestParentSpec
      [⟨1, 5, none, none⟩, ⟨2, 9, none, none⟩, ⟨2, 14, none, none⟩] :=
  ⟨by decide, buildForest_parents _ (by decide)⟩

end BulletTime
